import Mathlib

/-!
Verification development for the same-domain web crawler (`crawler.py`).

The crawler's pure helpers (`normalize_url`, `is_same_domain`) call Python's
`urllib.parse.urlparse`; we embed the relevant part of CPython's `urlsplit` /
`urlparse` algorithm on `List Char` (scheme extraction, netloc up to `/?#`,
fragment split at the first `#`, query split at the first `?`, and the
`;params` split on the last path segment for schemes in `uses_params`).
Control characters / bracketed IPv6 hosts are outside the modelled fragment:
inputs are assumed free of tab, CR, LF and square brackets, for which CPython
performs extra stripping and validation.

The stateful crawler (`crawl_url`, `crawl`) is embedded as explicit state
passing.  Every access to the shared mutable state (`visited`, `found_paths`)
in the source is guarded by the single `visited_lock`, and `visited` is only
written by the locked test-and-insert, so any concurrent execution of the
worker pool is equivalent (up to set contents) to a sequential execution of
the workers ordered by the time each acquired the lock for its claim; the
batch order below is therefore universally quantified where the concurrent
schedule matters.  The HTTP fetcher (`requests.get`) and the link extractor
(BeautifulSoup) are external collaborators, modelled as an `Oracle`.
`fetch_url` returns `(text, status)` on success and `(None, None)` on any
`requests.RequestException`, hence `Option (String × Nat)`.  Ghost fields
`fetched` and `dispatched` log which URLs were fetched / submitted to the
worker pool, in order.
-/

namespace Crawler

/-! ### Model of `urllib.parse.urlsplit` / `urlparse` -/

/-- CPython `scheme_chars`: ASCII letters, digits, and `+`, `-`, `.`. -/
def schemeChar (c : Char) : Bool :=
  c.isAlpha || c.isDigit || c == '+' || c == '-' || c == '.'

/-- `url.split(sep, 1)`: the part before the first occurrence of `c`
(everything, if `c` is absent) and the part after it (empty, if absent). -/
def splitAtFirst (c : Char) (l : List Char) : List Char × List Char :=
  (l.takeWhile (fun x => x ≠ c), (l.dropWhile (fun x => x ≠ c)).drop 1)

/-- The scheme-extraction step of `urlsplit`: if the part before the first
`:` is nonempty, starts with an ASCII letter and consists of scheme
characters, it is the (lowercased) scheme and the rest follows the colon;
otherwise there is no scheme. -/
def splitScheme (l : List Char) : List Char × List Char :=
  let pre := l.takeWhile (fun x => x ≠ ':')
  if pre.length < l.length ∧ pre ≠ [] ∧ (pre.headD ' ').isAlpha ∧ pre.all schemeChar then
    (pre.map Char.toLower, l.drop (pre.length + 1))
  else
    ([], l)

/-- A character ending the netloc in `_splitnetloc`: `/`, `?` or `#`. -/
def netlocEnd (c : Char) : Bool :=
  c == '/' || c == '?' || c == '#'

/-- `_splitnetloc`: the netloc runs up to the first of `/`, `?`, `#`;
the delimiter stays with the remainder. -/
def splitNetloc (l : List Char) : List Char × List Char :=
  (l.takeWhile (fun c => !netlocEnd c), l.dropWhile (fun c => !netlocEnd c))

structure SplitResult where
  scheme : List Char
  netloc : List Char
  path : List Char
  query : List Char
  fragment : List Char
deriving Repr, DecidableEq

/-- CPython `urlsplit` (on URLs without control characters or brackets):
scheme, then `//netloc` if present, then fragment at the first `#`, then
query at the first `?`. -/
def urlsplit (l : List Char) : SplitResult :=
  let (scheme, r1) := splitScheme l
  let (netloc, r2) :=
    if r1.take 2 = ['/', '/'] then splitNetloc (r1.drop 2) else ([], r1)
  let (r3, fragment) := splitAtFirst '#' r2
  let (path, query) := splitAtFirst '?' r3
  ⟨scheme, netloc, path, query, fragment⟩

/-- CPython `uses_params`: the schemes for which `urlparse` splits
`;params` off the path. -/
def uses_params : List (List Char) :=
  [[], "ftp".data, "hdl".data, "prospero".data, "http".data, "imap".data,
   "https".data, "shttp".data, "rtsp".data, "rtspu".data, "sip".data,
   "sips".data, "mms".data, "sftp".data, "tel".data]

/-- CPython `_splitparams`: split at the first `;` occurring in the last
path segment (after the last `/`); only called when `;` is present. -/
def splitparams (p : List Char) : List Char × List Char :=
  if '/' ∈ p then
    let revp := p.reverse
    let seg := (revp.takeWhile (fun c => c ≠ '/')).reverse
    let pre := (revp.dropWhile (fun c => c ≠ '/')).reverse
    if ';' ∈ seg then
      (pre ++ seg.takeWhile (fun c => c ≠ ';'),
       (seg.dropWhile (fun c => c ≠ ';')).drop 1)
    else
      (p, [])
  else
    splitAtFirst ';' p

structure ParseResult where
  scheme : List Char
  netloc : List Char
  path : List Char
  params : List Char
  query : List Char
  fragment : List Char
deriving Repr, DecidableEq

/-- The params step of `urlparse` applied to an `urlsplit` result. -/
def paramsStep (s : SplitResult) : ParseResult :=
  let (path, params) :=
    if s.scheme ∈ uses_params ∧ ';' ∈ s.path then splitparams s.path
    else (s.path, [])
  ⟨s.scheme, s.netloc, path, params, s.query, s.fragment⟩

/-- CPython `urlparse`: `urlsplit` followed by the `;params` split. -/
def urlparse (l : List Char) : ParseResult :=
  paramsStep (urlsplit l)

/-! ### The crawler's pure helpers (`crawler.py` lines 15–25) -/

/-- Python `path.rstrip('/')`: remove every trailing slash. -/
def rstripSlash (p : List Char) : List Char :=
  (p.reverse.dropWhile (fun c => c == '/')).reverse

/-- `normalize_url` on character lists:
`f"{scheme}://{netloc}{path.rstrip('/')}"`, plus `?query` when the query is
nonempty; params and fragment are dropped. -/
def normalizeList (url : List Char) : List Char :=
  let parsed := urlparse url
  let normalized :=
    parsed.scheme ++ ':' :: '/' :: '/' :: (parsed.netloc ++ rstripSlash parsed.path)
  if parsed.query ≠ [] then normalized ++ '?' :: parsed.query else normalized

/-- `normalize_url` (crawler.py line 15). -/
def normalize_url (url : String) : String :=
  ⟨normalizeList url.data⟩

/-- `is_same_domain` (crawler.py line 23): equal netloc, or netloc ending in
`"." + base_domain`. -/
def is_same_domain (url base_domain : String) : Bool :=
  let parsed := urlparse url.data
  parsed.netloc == base_domain.data
    || List.isSuffixOf ('.' :: base_domain.data) parsed.netloc

/-! ### The crawler's shared state and worker (`crawler.py` lines 10–12, 52–91) -/

/-- The external collaborators: `fetch_url` (via `requests`, returning
`(text, status_code)` on success and `(None, None)` on any
`RequestException`) and `extract_links` (via BeautifulSoup, taking the page
content and its base URL). -/
structure Oracle where
  fetch : String → Option (String × Nat)
  extract : String → String → List String

/-- The module-level mutable state of `crawler.py` (`visited`,
`found_paths`), plus ghost logs of the fetched URLs and of the entries
submitted to the worker pool, in order.  `visited` is a set of normalized
URLs; `found_paths` is a set of `(path, status)` pairs, `status` being
absent (`none`) on fetch failure. -/
structure CrawlState where
  visited : List String
  found : List (String × Option Nat)
  fetched : List String
  dispatched : List (String × Nat)
deriving Repr, DecidableEq

/-- The state at interpreter start: both sets empty. -/
def initState : CrawlState :=
  ⟨[], [], [], []⟩

/-- The locked test-and-insert on `visited` (crawler.py lines 69–72):
atomically insert the key if absent, reporting whether this call performed
the insertion. -/
def claimKey (k : String) (v : List String) : Bool × List String :=
  if k ∈ v then (false, v) else (true, v ++ [k])

/-- Python `set.add` on the `found_paths` set, as a duplicate-free list. -/
def setAdd (x : String × Option Nat) (s : List (String × Option Nat)) :
    List (String × Option Nat) :=
  if x ∈ s then s else s ++ [x]

/-- `parsed.path or '/'` (crawler.py line 80): the parsed path, or `/` when
it is empty. -/
def pathOf (url : String) : String :=
  let p := (urlparse url.data).path
  if p.isEmpty then "/" else ⟨p⟩

/-- One worker (`crawl_url`, crawler.py lines 63–91): depth guard, locked
claim of the normalized URL, domain check, fetch, record `(path, status)`
(status absent on failure), and return the extracted links (empty on
failure).  Returns the link set and the updated shared state. -/
def crawl_url (O : Oracle) (url base_domain : String) (depth max_depth : Nat)
    (s : CrawlState) : List String × CrawlState :=
  if max_depth < depth then ([], s)
  else
    let normalized := normalize_url url
    let (won, v') := claimKey normalized s.visited
    if !won then ([], s)
    else
      let s1 := { s with visited := v' }
      if !is_same_domain url base_domain then ([], s1)
      else
        let res := O.fetch url
        let s2 := { s1 with fetched := s1.fetched ++ [url] }
        let s3 := { s2 with found := setAdd (pathOf url, res.map Prod.snd) s2.found }
        match res with
        | none => ([], s3)
        | some (content, _) => (O.extract content url, s3)

/-! ### The frontier scheduler (`crawl`, crawler.py lines 94–130)

Workers of one depth level run concurrently; as argued in the header, any
concurrent schedule is equivalent to executing the workers in the order in
which their claims acquired the lock, so the batch is processed as a list
whose order the theorems quantify over where it matters. -/

/-- Dispatch a batch of frontier entries to the workers, collecting the
union of the returned link sets and threading the shared state.  Each entry
is logged as dispatched when submitted to the pool. -/
def runBatch (O : Oracle) (base_domain : String) (max_depth : Nat) :
    List (String × Nat) → CrawlState → List String × CrawlState
  | [], s => ([], s)
  | (u, d) :: rest, s =>
    let s0 := { s with dispatched := s.dispatched ++ [(u, d)] }
    let (links, s1) := crawl_url O u base_domain d max_depth s0
    let (moreLinks, s2) := runBatch O base_domain max_depth rest s1
    (links ++ moreLinks, s2)

/-- The scheduler's link filter (crawler.py lines 124–128): enqueue a
discovered link at `current_depth + 1` when its normalization is unvisited
and it is in-domain. -/
def enqueueLinks (base_domain : String) (links : List String) (current_depth : Nat)
    (visited : List String) : List (String × Nat) :=
  links.filterMap (fun link =>
    if normalize_url link ∉ visited ∧ is_same_domain link base_domain then
      some (link, current_depth + 1)
    else none)

/-- The `while queue:` loop (crawler.py lines 106–128): pop the full batch
at the front depth, stop (discarding the batch) once that depth exceeds
`max_depth`, otherwise dispatch the batch and append the filtered links at
depth + 1.  The loop runs at most `max_depth + 2` iterations from the
initial queue (the uniform front depth grows by one per iteration), so that
much fuel makes the recursion total without changing its value. -/
def crawlLoop (O : Oracle) (base_domain : String) (max_depth : Nat) :
    Nat → List (String × Nat) → CrawlState → CrawlState
  | 0, _, s => s
  | _ + 1, [], s => s
  | fuel + 1, (u0, d0) :: qrest, s =>
    let batch := ((u0, d0) :: qrest).takeWhile (fun e => e.2 == d0)
    let rest := ((u0, d0) :: qrest).dropWhile (fun e => e.2 == d0)
    if max_depth < d0 then s
    else
      let (links, s1) := runBatch O base_domain max_depth batch s
      crawlLoop O base_domain max_depth fuel
        (rest ++ enqueueLinks base_domain links d0 s1.visited) s1

/-- `crawl` (crawler.py line 94): base domain from the seed's netloc,
frontier seeded with `(start_url, 0)`, loop to completion; returns
`found_paths` together with the final shared state. -/
def crawl (O : Oracle) (start_url : String) (max_depth : Nat) (s : CrawlState) :
    List (String × Option Nat) × CrawlState :=
  let base_domain : String := ⟨(urlparse start_url.data).netloc⟩
  let s' := crawlLoop O base_domain max_depth (max_depth + 2) [(start_url, 0)] s
  (s'.found, s')

/-- `n` successive executions of the locked test-and-insert for the same
key: the lock serializes `n` concurrent `claim` calls into exactly such a
sequence, in lock-acquisition order. -/
def claimSeq (k : String) : Nat → List String → List Bool
  | 0, _ => []
  | n + 1, v =>
    let (b, v') := claimKey k v
    b :: claimSeq k n v'

/-- Number of fetches of URLs normalizing to key `k` in a fetch log. -/
def countFetched (k : String) (log : List String) : Nat :=
  (log.filter (fun u => normalize_url u == k)).length

/-! ### The `-o, --output` serialization (`main`, crawler.py lines 174–177)

`sorted(paths)` compares `(path, status)` tuples with Python semantics:
components are compared left to right, equal components are skipped, and
comparing `None` with an `int` raises `TypeError`.  The sort is modelled as
a stable insertion sort over this fallible comparison; it agrees with
CPython's sort on every list whose performed comparisons are all defined,
and on the failing inputs below the very first comparison already raises. -/

/-- Python `str < str`: lexicographic by code point. -/
def pyStrLt : List Char → List Char → Bool
  | [], [] => false
  | [], _ :: _ => true
  | _ :: _, [] => false
  | a :: as, b :: bs => if a = b then pyStrLt as bs else decide (a.val < b.val)

/-- Python `<` on the status component: two ints compare numerically, two
`None`s are equal (so not `<`), and `None` against an int raises
`TypeError`. -/
def pyStatusLt : Option Nat → Option Nat → Except Unit Bool
  | some a, some b => .ok (decide (a < b))
  | none, none => .ok false
  | _, _ => .error ()

/-- Python `<` on `(path, status)` tuples. -/
def pyPairLt (a b : String × Option Nat) : Except Unit Bool :=
  if a.1.data = b.1.data then
    if a.2 = b.2 then .ok false else pyStatusLt a.2 b.2
  else .ok (pyStrLt a.1.data b.1.data)

/-- Stable insertion into a sorted list under the fallible comparison. -/
def pyInsert (x : String × Option Nat) :
    List (String × Option Nat) → Except Unit (List (String × Option Nat))
  | [] => .ok [x]
  | y :: ys => do
    let b ← pyPairLt x y
    if b then pure (x :: y :: ys)
    else do
      let rest ← pyInsert x ys
      pure (y :: rest)

/-- Python `sorted` on the record list, propagating `TypeError`. -/
def pySorted : List (String × Option Nat) → Except Unit (List (String × Option Nat))
  | [] => .ok []
  | x :: xs => do
    let rest ← pySorted xs
    pyInsert x rest

/-- Python `f"{status}"`: the decimal digits, or `None` for an absent
status. -/
def statusRepr : Option Nat → String
  | some n => toString n
  | none => "None"

/-- The lines written to the `-o, --output` file (crawler.py lines 175–177):
`f"{status}\t{path}\n"` for each record of `sorted(paths)`, or the
`TypeError` if the sort raises.  Each list element is one line (without the
terminating newline). -/
def output_lines (paths : List (String × Option Nat)) : Except Unit (List String) :=
  (pySorted paths).map (List.map (fun r => statusRepr r.2 ++ "\t" ++ r.1))

/-! ### Well-formed component URLs

The normalizer claims quantify over absolute URLs built from components:
a scheme, a host, a path that is empty or starts with `/`, and optional
query and fragment parts. -/

/-- `?query` when there is a query part. -/
def optQuery : Option (List Char) → List Char
  | none => []
  | some q => '?' :: q

/-- `#fragment` when there is a fragment part. -/
def optFrag : Option (List Char) → List Char
  | none => []
  | some f => '#' :: f

/-- `scheme://host path [?query] [#fragment]` as a character list. -/
def buildUrl (s h p : List Char) (q f : Option (List Char)) : List Char :=
  s ++ ':' :: '/' :: '/' :: (h ++ (p ++ optQuery q ++ optFrag f))

/-- A syntactically valid scheme: nonempty, leading ASCII letter, scheme
characters throughout. -/
@[reducible] def wfScheme (s : List Char) : Prop :=
  s ≠ [] ∧ (s.headD ' ').isAlpha = true ∧ s.all schemeChar = true

/-- A host without netloc-terminating characters (`/`, `?`, `#`). -/
@[reducible] def wfHost (h : List Char) : Prop :=
  ∀ c ∈ h, netlocEnd c = false

/-- A path component: empty or starting with `/`, containing no `?` or
`#`. -/
@[reducible] def wfPath (p : List Char) : Prop :=
  (p = [] ∨ p.headD ' ' = '/') ∧ '?' ∉ p ∧ '#' ∉ p

set_option linter.unusedVariables false in
/-- `crawl_url` with the out-of-domain early return (crawler.py lines
74–75) deleted, used to state that that branch is unreachable for the URLs
the scheduler actually dispatches.  It keeps `crawl_url`'s signature, so
`base_domain` is (by design) no longer read. -/
def crawl_url_no_domain_branch (O : Oracle) (url base_domain : String)
    (depth max_depth : Nat) (s : CrawlState) : List String × CrawlState :=
  if max_depth < depth then ([], s)
  else
    let normalized := normalize_url url
    let (won, v') := claimKey normalized s.visited
    if !won then ([], s)
    else
      let s1 := { s with visited := v' }
      let res := O.fetch url
      let s2 := { s1 with fetched := s1.fetched ++ [url] }
      let s3 := { s2 with found := setAdd (pathOf url, res.map Prod.snd) s2.found }
      match res with
      | none => ([], s3)
      | some (content, _) => (O.extract content url, s3)

/-! ### Concrete collaborators used to witness the theorems

Each oracle describes one small mock site; the crawler is then run on it
and the resulting state evaluated. -/

/-- Two pages of one depth level linking to the same page `C` (under two
spellings normalizing to one key). -/
def OW1 : Oracle where
  fetch := fun u =>
    if u = "https://a.com/c" then some ("pageC", 200)
    else if u = "https://a.com/c/" then some ("pageC", 200)
    else none
  extract := fun _ _ => []

/-- A seed linking to the same path under two query strings, both fetches
succeeding with the same status. -/
def O2s : Oracle where
  fetch := fun u =>
    if u = "https://a.com" then some ("root", 200)
    else if u = "https://a.com/p?x=1" then some ("leaf", 200)
    else if u = "https://a.com/p?x=2" then some ("leaf", 200)
    else none
  extract := fun _ base =>
    if base = "https://a.com" then ["https://a.com/p?x=1", "https://a.com/p?x=2"]
    else []

/-- A seed linking to the same path under two query strings, the fetches
returning different statuses. -/
def O2d : Oracle where
  fetch := fun u =>
    if u = "https://a.com" then some ("root", 200)
    else if u = "https://a.com/p?x=1" then some ("leaf", 200)
    else if u = "https://a.com/p?x=2" then some ("miss", 404)
    else none
  extract := fun _ base =>
    if base = "https://a.com" then ["https://a.com/p?x=1", "https://a.com/p?x=2"]
    else []

/-- One URL whose fetch fails next to one that succeeds and yields a
link. -/
def O7 : Oracle where
  fetch := fun u =>
    if u = "https://a.com/bad" then none
    else if u = "https://a.com/good" then some ("goodpage", 200)
    else none
  extract := fun content _ =>
    if content = "goodpage" then ["https://a.com/next"] else []

/-- A seed linking to one path under two query strings, one fetch failing
and one succeeding: the record set then holds `("/x", None)` and
`("/x", 200)`. -/
def O8 : Oracle where
  fetch := fun u =>
    if u = "https://a.com" then some ("root", 200)
    else if u = "https://a.com/x?a=2" then some ("leaf", 200)
    else none
  extract := fun _ base =>
    if base = "https://a.com" then ["https://a.com/x?a=1", "https://a.com/x?a=2"]
    else []

/-- A one-page site with no links. -/
def O9 : Oracle where
  fetch := fun u => if u = "https://a.com" then some ("root", 200) else none
  extract := fun _ _ => []

/-! ### List helpers -/

theorem takeWhile_append_all {α} {p : α → Bool} {l₁ l₂ : List α}
    (h : ∀ x ∈ l₁, p x = true) :
    (l₁ ++ l₂).takeWhile p = l₁ ++ l₂.takeWhile p := by
  induction l₁ with
  | nil => rfl
  | cons a l ih =>
    have ha : p a = true := h a (by simp)
    simp only [List.cons_append, List.takeWhile_cons, ha, if_true]
    rw [ih (fun x hx => h x (by simp [hx]))]

theorem dropWhile_append_all {α} {p : α → Bool} {l₁ l₂ : List α}
    (h : ∀ x ∈ l₁, p x = true) :
    (l₁ ++ l₂).dropWhile p = l₂.dropWhile p := by
  induction l₁ with
  | nil => rfl
  | cons a l ih =>
    have ha : p a = true := h a (by simp)
    simp only [List.cons_append, List.dropWhile_cons, ha, if_true]
    exact ih (fun x hx => h x (by simp [hx]))

theorem head?_dropWhile_false {α} {p : α → Bool} {l : List α} {a : α}
    (h : (l.dropWhile p).head? = some a) : p a = false := by
  induction l with
  | nil => simp at h
  | cons b l ih =>
    rw [List.dropWhile_cons] at h
    by_cases hb : p b = true
    · exact ih (by simpa [hb] using h)
    · rw [if_neg hb, List.head?_cons, Option.some.injEq] at h
      subst h
      simpa using hb

theorem schemeChar_ne_colon {c : Char} (h : schemeChar c = true) : c ≠ ':' := by
  rintro rfl
  simp [schemeChar] at h

theorem splitAtFirst_of_not_mem {c : Char} {l : List Char} (h : c ∉ l) :
    splitAtFirst c l = (l, []) := by
  unfold splitAtFirst
  have hall : ∀ x ∈ l, (fun x => decide (x ≠ c)) x = true := by
    intro x hx
    simp only [decide_eq_true_eq]
    rintro rfl
    exact h hx
  rw [List.takeWhile_eq_self_iff.mpr hall, List.dropWhile_eq_nil_iff.mpr hall]
  rfl

theorem splitAtFirst_append {c : Char} {l r : List Char} (h : c ∉ l) :
    splitAtFirst c (l ++ c :: r) = (l, r) := by
  unfold splitAtFirst
  have hall : ∀ x ∈ l, (fun x => decide (x ≠ c)) x = true := by
    intro x hx
    simp only [decide_eq_true_eq]
    rintro rfl
    exact h hx
  rw [takeWhile_append_all hall, dropWhile_append_all hall]
  simp

theorem splitScheme_build {s : List Char} (t : List Char) (hs : wfScheme s) :
    splitScheme (s ++ ':' :: t) = (s.map Char.toLower, t) := by
  obtain ⟨hne, hhead, hall⟩ := hs
  have hcolon : ∀ x ∈ s, (fun x => decide (x ≠ ':')) x = true := by
    intro x hx
    simp only [decide_eq_true_eq]
    exact schemeChar_ne_colon (by simpa using List.all_eq_true.mp hall x hx)
  unfold splitScheme
  have hpre : (s ++ ':' :: t).takeWhile (fun x => decide (x ≠ ':')) = s := by
    rw [takeWhile_append_all hcolon]
    simp [List.takeWhile_cons]
  rw [hpre]
  have hlen : s.length < (s ++ ':' :: t).length := by
    simp [List.length_append]
  rw [if_pos ⟨hlen, hne, hhead, hall⟩]
  have hdrop : (s ++ ':' :: t).drop (s.length + 1) = t := by
    have h1 : s ++ ':' :: t = (s ++ [':']) ++ t := by simp
    have h2 : s.length + 1 = (s ++ [':']).length := by simp
    rw [h1, h2]
    exact List.drop_left _ _
  rw [hdrop]

theorem splitNetloc_build {h rest : List Char} (hh : wfHost h)
    (hr : rest = [] ∨ netlocEnd (rest.headD 'x') = true) :
    splitNetloc (h ++ rest) = (h, rest) := by
  have hallh : ∀ c ∈ h, (fun c => !netlocEnd c) c = true := by
    intro c hc
    simp [hh c hc]
  unfold splitNetloc
  rw [takeWhile_append_all hallh, dropWhile_append_all hallh]
  rcases hr with rfl | hr
  · simp
  · rcases rest with _ | ⟨r, rs⟩
    · simp
    · simp only [List.headD_cons] at hr
      simp [List.takeWhile_cons, List.dropWhile_cons, hr]

theorem urlsplit_build {s h p : List Char} {q f : Option (List Char)}
    (hs : wfScheme s) (hh : wfHost h) (hp : wfPath p)
    (hq : '#' ∉ q.getD []) :
    urlsplit (buildUrl s h p q f) =
      ⟨s.map Char.toLower, h, p, q.getD [], f.getD []⟩ := by
  obtain ⟨hphead, hpq, hpf⟩ := hp
  have hrest : p ++ optQuery q ++ optFrag f = [] ∨
      netlocEnd ((p ++ optQuery q ++ optFrag f).headD 'x') = true := by
    rcases p with _ | ⟨c, p'⟩
    · rcases q with _ | q'
      · rcases f with _ | f'
        · left; rfl
        · right; simp [optQuery, optFrag, netlocEnd]
      · right; simp [optQuery, netlocEnd]
    · right
      rcases hphead with hnil | hc
      · exact absurd hnil (by simp)
      · simp only [List.headD_cons] at hc
        simp [hc, netlocEnd]
  have hnoq : '#' ∉ p ++ optQuery q := by
    intro hmem
    rcases List.mem_append.mp hmem with hm | hm
    · exact hpf hm
    · rcases q with _ | q'
      · simp [optQuery] at hm
      · rcases List.mem_cons.mp hm with hm | hm
        · exact absurd hm.symm (by decide)
        · exact hq (by simpa using hm)
  have hfragstep :
      splitAtFirst '#' (p ++ optQuery q ++ optFrag f) = (p ++ optQuery q, f.getD []) := by
    rcases f with _ | f'
    · simpa [optFrag] using splitAtFirst_of_not_mem hnoq
    · simpa [optFrag] using splitAtFirst_append hnoq
  have hquerystep : splitAtFirst '?' (p ++ optQuery q) = (p, q.getD []) := by
    rcases q with _ | q'
    · simpa [optQuery] using splitAtFirst_of_not_mem hpq
    · simpa [optQuery] using splitAtFirst_append hpq
  have hsch :=
    splitScheme_build ('/' :: '/' :: (h ++ (p ++ optQuery q ++ optFrag f))) hs
  have htake : List.take 2 ('/' :: '/' :: (h ++ (p ++ optQuery q ++ optFrag f))) =
      ['/', '/'] := rfl
  have hdrop : List.drop 2 ('/' :: '/' :: (h ++ (p ++ optQuery q ++ optFrag f))) =
      h ++ (p ++ optQuery q ++ optFrag f) := rfl
  simp only [buildUrl, urlsplit, hsch, htake, hdrop, if_pos,
    splitNetloc_build hh hrest, hfragstep, hquerystep]

theorem urlparse_build {s h p : List Char} {q f : Option (List Char)}
    (hs : wfScheme s) (hh : wfHost h) (hp : wfPath p)
    (hq : '#' ∉ q.getD []) (hsemi : ';' ∉ p) :
    urlparse (buildUrl s h p q f) =
      ⟨s.map Char.toLower, h, p, [], q.getD [], f.getD []⟩ := by
  unfold urlparse
  rw [urlsplit_build hs hh hp hq]
  unfold paramsStep
  rw [if_neg (by simp [hsemi])]

theorem normalizeList_build {s h p : List Char} {q f : Option (List Char)}
    (hs : wfScheme s) (hh : wfHost h) (hp : wfPath p)
    (hq : '#' ∉ q.getD []) (hsemi : ';' ∉ p) :
    normalizeList (buildUrl s h p q f) =
      (s.map Char.toLower ++ ':' :: '/' :: '/' :: (h ++ rstripSlash p)) ++
        (if q.getD [] ≠ [] then '?' :: q.getD [] else []) := by
  unfold normalizeList
  rw [urlparse_build hs hh hp hq hsemi]
  by_cases hqe : q.getD [] = []
  · simp [hqe]
  · simp [hqe]

/-! ### Facts about `rstrip('/')` -/

theorem rstripSlash_append_slash (p : List Char) :
    rstripSlash (p ++ ['/']) = rstripSlash p := by
  unfold rstripSlash
  rw [List.reverse_append]
  simp [List.dropWhile_cons]

theorem rstripSlash_getLast? (p : List Char) :
    (rstripSlash p).getLast? ≠ some '/' := by
  unfold rstripSlash
  intro hcontra
  rw [List.getLast?_reverse] at hcontra
  have := head?_dropWhile_false hcontra
  simp at this

theorem rstripSlash_replicate (p : List Char) :
    ∃ k, p = rstripSlash p ++ List.replicate k '/' := by
  refine ⟨(p.reverse.takeWhile (fun c => c == '/')).length, ?_⟩
  have hsplit : p.reverse.takeWhile (fun c => c == '/') ++
      p.reverse.dropWhile (fun c => c == '/') = p.reverse :=
    List.takeWhile_append_dropWhile _ _
  have hrep : p.reverse.takeWhile (fun c => c == '/') =
      List.replicate (p.reverse.takeWhile (fun c => c == '/')).length '/' := by
    apply List.eq_replicate_of_mem
    intro b hb
    have := List.mem_takeWhile_imp hb
    simpa using this
  have hrev : (p.reverse.takeWhile (fun c => c == '/')).reverse =
      List.replicate (p.reverse.takeWhile (fun c => c == '/')).length '/' := by
    conv_lhs => rw [hrep]
    rw [List.reverse_replicate]
  calc p = p.reverse.reverse := by rw [List.reverse_reverse]
    _ = (p.reverse.takeWhile (fun c => c == '/') ++
          p.reverse.dropWhile (fun c => c == '/')).reverse := by rw [hsplit]
    _ = rstripSlash p ++ (p.reverse.takeWhile (fun c => c == '/')).reverse := by
          rw [List.reverse_append]; rfl
    _ = _ := by rw [hrev]

/-! ### Facts about `found_paths` insertion -/

theorem mem_setAdd_self (x : String × Option Nat) (s : List (String × Option Nat)) :
    x ∈ setAdd x s := by
  unfold setAdd
  by_cases h : x ∈ s
  · simp [h]
  · simp [h]

theorem mem_setAdd_of_mem {y : String × Option Nat} {s : List (String × Option Nat)}
    (x : String × Option Nat) (h : y ∈ s) : y ∈ setAdd x s := by
  unfold setAdd
  by_cases hx : x ∈ s
  · simp [hx, h]
  · simp [hx, h]

theorem nodup_setAdd (x : String × Option Nat) {s : List (String × Option Nat)}
    (h : s.Nodup) : (setAdd x s).Nodup := by
  unfold setAdd
  by_cases hx : x ∈ s
  · simp [hx, h]
  · simp [hx, List.nodup_append, h]

theorem length_setAdd_of_mem {x : String × Option Nat} {s : List (String × Option Nat)}
    (h : x ∈ s) : (setAdd x s).length = s.length := by
  simp [setAdd, h]

/-! ### Branch equations for the worker `crawl_url` -/

theorem crawl_url_eq_depth {depth max_depth : Nat} (O : Oracle) (url b : String)
    (s : CrawlState) (h : max_depth < depth) :
    crawl_url O url b depth max_depth s = ([], s) := by
  simp [crawl_url, h]

theorem crawl_url_eq_visited {depth max_depth : Nat} {s : CrawlState} (O : Oracle)
    (url b : String) (hd : ¬ max_depth < depth)
    (hv : normalize_url url ∈ s.visited) :
    crawl_url O url b depth max_depth s = ([], s) := by
  simp [crawl_url, claimKey, hd, hv]

theorem crawl_url_eq_outdomain {depth max_depth : Nat} {s : CrawlState} (O : Oracle)
    {url b : String} (hd : ¬ max_depth < depth)
    (hv : normalize_url url ∉ s.visited) (hdom : is_same_domain url b = false) :
    crawl_url O url b depth max_depth s =
      ([], { s with visited := s.visited ++ [normalize_url url] }) := by
  simp [crawl_url, claimKey, hd, hv, hdom]

theorem crawl_url_eq_fail {depth max_depth : Nat} {s : CrawlState} {O : Oracle}
    {url b : String} (hd : ¬ max_depth < depth)
    (hv : normalize_url url ∉ s.visited) (hdom : is_same_domain url b = true)
    (hf : O.fetch url = none) :
    crawl_url O url b depth max_depth s =
      ([], { s with
              visited := s.visited ++ [normalize_url url],
              fetched := s.fetched ++ [url],
              found := setAdd (pathOf url, none) s.found }) := by
  simp [crawl_url, claimKey, hd, hv, hdom, hf]

theorem crawl_url_eq_ok {depth max_depth : Nat} {s : CrawlState} {O : Oracle}
    {url b : String} {c : String} {st : Nat} (hd : ¬ max_depth < depth)
    (hv : normalize_url url ∉ s.visited) (hdom : is_same_domain url b = true)
    (hf : O.fetch url = some (c, st)) :
    crawl_url O url b depth max_depth s =
      (O.extract c url,
       { s with
          visited := s.visited ++ [normalize_url url],
          fetched := s.fetched ++ [url],
          found := setAdd (pathOf url, some st) s.found }) := by
  simp [crawl_url, claimKey, hd, hv, hdom, hf]

/-- Exhaustive shape analysis of one worker run: the worker leaves the
state unchanged, claims without fetching (out of domain), or claims,
fetches and records. -/
theorem crawl_url_result (O : Oracle) (url b : String) (depth max_depth : Nat)
    (s : CrawlState) :
    crawl_url O url b depth max_depth s = ([], s)
    ∨ crawl_url O url b depth max_depth s =
        ([], { s with visited := s.visited ++ [normalize_url url] })
    ∨ ∃ links stat,
        crawl_url O url b depth max_depth s =
          (links, { s with
                      visited := s.visited ++ [normalize_url url],
                      fetched := s.fetched ++ [url],
                      found := setAdd (pathOf url, stat) s.found }) := by
  by_cases hd : max_depth < depth
  · exact Or.inl (crawl_url_eq_depth O url b s hd)
  · by_cases hv : normalize_url url ∈ s.visited
    · exact Or.inl (crawl_url_eq_visited O url b hd hv)
    · rcases hdom : is_same_domain url b with _ | _
      · exact Or.inr (Or.inl (crawl_url_eq_outdomain O hd hv hdom))
      · rcases hf : O.fetch url with _ | ⟨c, st⟩
        · exact Or.inr (Or.inr ⟨[], none, crawl_url_eq_fail hd hv hdom hf⟩)
        · exact Or.inr (Or.inr ⟨O.extract c url, some st, crawl_url_eq_ok hd hv hdom hf⟩)

/-- One worker never touches the dispatch log. -/
theorem crawl_url_dispatched (O : Oracle) (url b : String) (depth max_depth : Nat)
    (s : CrawlState) :
    (crawl_url O url b depth max_depth s).2.dispatched = s.dispatched := by
  rcases crawl_url_result O url b depth max_depth s with heq | heq | ⟨links, stat, heq⟩ <;>
    rw [heq]

/-- One worker leaves `visited` unchanged or appends its own key. -/
theorem crawl_url_visited_cases (O : Oracle) (url b : String) (depth max_depth : Nat)
    (s : CrawlState) :
    (crawl_url O url b depth max_depth s).2.visited = s.visited ∨
    (crawl_url O url b depth max_depth s).2.visited =
      s.visited ++ [normalize_url url] := by
  rcases crawl_url_result O url b depth max_depth s with heq | heq | ⟨links, stat, heq⟩ <;>
    rw [heq]
  · exact Or.inl rfl
  · exact Or.inr rfl
  · exact Or.inr rfl

/-- One worker leaves the fetch log unchanged or appends its own URL. -/
theorem crawl_url_fetched_cases (O : Oracle) (url b : String) (depth max_depth : Nat)
    (s : CrawlState) :
    (crawl_url O url b depth max_depth s).2.fetched = s.fetched ∨
    (crawl_url O url b depth max_depth s).2.fetched = s.fetched ++ [url] := by
  rcases crawl_url_result O url b depth max_depth s with heq | heq | ⟨links, stat, heq⟩ <;>
    rw [heq]
  · exact Or.inl rfl
  · exact Or.inl rfl
  · exact Or.inr rfl

/-- Records already in the ledger survive one worker run. -/
theorem crawl_url_found_mono {y : String × Option Nat} (O : Oracle) (url b : String)
    (depth max_depth : Nat) (s : CrawlState) (h : y ∈ s.found) :
    y ∈ (crawl_url O url b depth max_depth s).2.found := by
  rcases crawl_url_result O url b depth max_depth s with heq | heq | ⟨links, stat, heq⟩ <;>
    rw [heq]
  · exact h
  · exact h
  · exact mem_setAdd_of_mem _ h

/-- Keys already claimed survive one worker run. -/
theorem crawl_url_visited_mono {k : String} (O : Oracle) (url b : String)
    (depth max_depth : Nat) (s : CrawlState) (h : k ∈ s.visited) :
    k ∈ (crawl_url O url b depth max_depth s).2.visited := by
  rcases crawl_url_visited_cases O url b depth max_depth s with heq | heq <;>
    rw [heq] <;> simp [h]

/-- A duplicate-free ledger stays duplicate-free through one worker run. -/
theorem crawl_url_found_nodup (O : Oracle) (url b : String) (depth max_depth : Nat)
    (s : CrawlState) (h : s.found.Nodup) :
    (crawl_url O url b depth max_depth s).2.found.Nodup := by
  rcases crawl_url_result O url b depth max_depth s with heq | heq | ⟨links, stat, heq⟩ <;>
    rw [heq]
  · exact h
  · exact h
  · exact nodup_setAdd _ h

/-! ### Facts about batch dispatch -/

theorem runBatch_cons (O : Oracle) (b : String) (md : Nat) (u : String) (d : Nat)
    (rest : List (String × Nat)) (s : CrawlState) :
    runBatch O b md ((u, d) :: rest) s =
      ((crawl_url O u b d md { s with dispatched := s.dispatched ++ [(u, d)] }).1 ++
        (runBatch O b md rest
          (crawl_url O u b d md { s with dispatched := s.dispatched ++ [(u, d)] }).2).1,
       (runBatch O b md rest
         (crawl_url O u b d md { s with dispatched := s.dispatched ++ [(u, d)] }).2).2) := by
  rcases h1 : crawl_url O u b d md { s with dispatched := s.dispatched ++ [(u, d)] } with
    ⟨links, s1⟩
  rcases h2 : runBatch O b md rest s1 with ⟨more, s2⟩
  simp [runBatch, h1, h2]

/-- Dispatching a batch appends exactly its entries to the dispatch log. -/
theorem runBatch_dispatched (O : Oracle) (b : String) (md : Nat)
    (batch : List (String × Nat)) (s : CrawlState) :
    (runBatch O b md batch s).2.dispatched = s.dispatched ++ batch := by
  induction batch generalizing s with
  | nil => simp [runBatch]
  | cons e rest ih =>
    obtain ⟨u, d⟩ := e
    rw [runBatch_cons, ih, crawl_url_dispatched]
    simp

theorem runBatch_visited_mono {k : String} (O : Oracle) (b : String) (md : Nat)
    (batch : List (String × Nat)) (s : CrawlState) (h : k ∈ s.visited) :
    k ∈ (runBatch O b md batch s).2.visited := by
  induction batch generalizing s with
  | nil => simpa [runBatch] using h
  | cons e rest ih =>
    obtain ⟨u, d⟩ := e
    rw [runBatch_cons]
    exact ih _ (crawl_url_visited_mono O u b d md _ h)

theorem runBatch_found_mono {y : String × Option Nat} (O : Oracle) (b : String)
    (md : Nat) (batch : List (String × Nat)) (s : CrawlState) (h : y ∈ s.found) :
    y ∈ (runBatch O b md batch s).2.found := by
  induction batch generalizing s with
  | nil => simpa [runBatch] using h
  | cons e rest ih =>
    obtain ⟨u, d⟩ := e
    rw [runBatch_cons]
    exact ih _ (crawl_url_found_mono O u b d md _ h)

theorem runBatch_found_nodup (O : Oracle) (b : String) (md : Nat)
    (batch : List (String × Nat)) (s : CrawlState) (h : s.found.Nodup) :
    (runBatch O b md batch s).2.found.Nodup := by
  induction batch generalizing s with
  | nil => simpa [runBatch] using h
  | cons e rest ih =>
    obtain ⟨u, d⟩ := e
    rw [runBatch_cons]
    exact ih _ (crawl_url_found_nodup O u b d md _ h)

/-- Every URL in the fetch log after a batch was there before or belongs to
the batch. -/
theorem runBatch_fetched_shape {v : String} (O : Oracle) (b : String) (md : Nat)
    (batch : List (String × Nat)) (s : CrawlState)
    (h : v ∈ (runBatch O b md batch s).2.fetched) :
    v ∈ s.fetched ∨ ∃ d, (v, d) ∈ batch := by
  induction batch generalizing s with
  | nil => simp [runBatch] at h; exact Or.inl h
  | cons e rest ih =>
    obtain ⟨u, d⟩ := e
    rw [runBatch_cons] at h
    rcases ih _ h with hv | ⟨d', hd'⟩
    · rcases crawl_url_fetched_cases O u b d md
        { s with dispatched := s.dispatched ++ [(u, d)] } with heq | heq
      · rw [heq] at hv
        exact Or.inl hv
      · rw [heq] at hv
        rcases List.mem_append.mp hv with hv | hv
        · exact Or.inl hv
        · exact Or.inr ⟨d, by simp [List.mem_singleton.mp hv]⟩
    · exact Or.inr ⟨d', List.mem_cons_of_mem _ hd'⟩

/-! ### Counting fetches of one key (for the at-most-once claim) -/

theorem countFetched_append (k : String) (l₁ l₂ : List String) :
    countFetched k (l₁ ++ l₂) = countFetched k l₁ + countFetched k l₂ := by
  simp [countFetched, List.filter_append]

theorem countFetched_single_eq {k : String} {u : String} (h : normalize_url u = k) :
    countFetched k [u] = 1 := by
  simp [countFetched, List.filter, h]

theorem countFetched_single_ne {k : String} {u : String} (h : normalize_url u ≠ k) :
    countFetched k [u] = 0 := by
  have hb : (normalize_url u == k) = false := beq_eq_false_iff_ne.mpr h
  simp [countFetched, List.filter, hb]

/-- A worker for a URL of a different key neither fetches the key nor
claims it. -/
theorem crawl_url_count_other {k : String} (O : Oracle) {url : String} (b : String)
    (depth max_depth : Nat) (s : CrawlState) (hne : normalize_url url ≠ k) :
    countFetched k (crawl_url O url b depth max_depth s).2.fetched =
      countFetched k s.fetched ∧
    (k ∉ s.visited → k ∉ (crawl_url O url b depth max_depth s).2.visited) := by
  rcases crawl_url_result O url b depth max_depth s with heq | heq | ⟨links, stat, heq⟩ <;>
    rw [heq]
  · exact ⟨rfl, fun h => h⟩
  · refine ⟨rfl, fun h => ?_⟩
    simp only [List.mem_append, List.mem_singleton]
    rintro (hk | hk)
    · exact h hk
    · exact hne hk.symm
  · constructor
    · rw [countFetched_append, countFetched_single_ne hne]
      omega
    · intro h
      simp only [List.mem_append, List.mem_singleton]
      rintro (hk | hk)
      · exact h hk
      · exact hne hk.symm

/-- A worker whose key is already claimed does not fetch it. -/
theorem crawl_url_count_visited {k : String} (O : Oracle) (url b : String)
    (depth max_depth : Nat) (s : CrawlState) (hv : k ∈ s.visited) :
    countFetched k (crawl_url O url b depth max_depth s).2.fetched =
      countFetched k s.fetched := by
  by_cases hne : normalize_url url = k
  · subst hne
    by_cases hd : max_depth < depth
    · rw [crawl_url_eq_depth O url b s hd]
    · rw [crawl_url_eq_visited O url b hd hv]
  · exact (crawl_url_count_other O b depth max_depth s hne).1

/-- The first worker to claim an absent in-domain key (at a legal depth)
fetches it exactly once and leaves the key claimed. -/
theorem crawl_url_count_claim {k : String} {O : Oracle} {url : String} {b : String}
    {depth max_depth : Nat} (s : CrawlState) (hk : normalize_url url = k)
    (hv : k ∉ s.visited) (hd : depth ≤ max_depth) (hdom : is_same_domain url b = true) :
    countFetched k (crawl_url O url b depth max_depth s).2.fetched =
      countFetched k s.fetched + 1 ∧
    k ∈ (crawl_url O url b depth max_depth s).2.visited := by
  have hd' : ¬ max_depth < depth := Nat.not_lt.mpr hd
  have hv' : normalize_url url ∉ s.visited := by rw [hk]; exact hv
  rcases hf : O.fetch url with _ | ⟨c, st⟩
  · rw [crawl_url_eq_fail hd' hv' hdom hf]
    exact ⟨by rw [countFetched_append, countFetched_single_eq hk],
      by simp [hk]⟩
  · rw [crawl_url_eq_ok hd' hv' hdom hf]
    exact ⟨by rw [countFetched_append, countFetched_single_eq hk],
      by simp [hk]⟩

/-- Once a key is claimed, a whole batch adds no fetch of it. -/
theorem runBatch_count_visited {k : String} (O : Oracle) (b : String) (md : Nat)
    (batch : List (String × Nat)) (s : CrawlState) (hv : k ∈ s.visited) :
    countFetched k (runBatch O b md batch s).2.fetched =
      countFetched k s.fetched := by
  induction batch generalizing s with
  | nil => simp [runBatch]
  | cons e rest ih =>
    obtain ⟨u, d⟩ := e
    rw [runBatch_cons]
    have hv0 : k ∈ ({ s with dispatched := s.dispatched ++ [(u, d)] } : CrawlState).visited :=
      hv
    rw [ih _ (crawl_url_visited_mono O u b d md _ hv0)]
    exact crawl_url_count_visited O u b d md _ hv0

/-- A batch holding at least one entry for an unclaimed key `k`, all of
whose entries for `k` respect the depth bound and are in-domain, fetches
`k` exactly once — in whatever order the batch is dispatched. -/
theorem runBatch_count_one {k : String} (O : Oracle) (b : String) (md : Nat)
    (batch : List (String × Nat)) (s : CrawlState)
    (hv : k ∉ s.visited)
    (hb : ∀ e ∈ batch, normalize_url e.1 = k → e.2 ≤ md ∧ is_same_domain e.1 b = true)
    (hex : ∃ e ∈ batch, normalize_url e.1 = k) :
    countFetched k (runBatch O b md batch s).2.fetched =
      countFetched k s.fetched + 1 := by
  induction batch generalizing s with
  | nil => simp at hex
  | cons e rest ih =>
    obtain ⟨u, d⟩ := e
    rw [runBatch_cons]
    by_cases hk : normalize_url u = k
    · obtain ⟨hdle, hdom⟩ := hb (u, d) (List.mem_cons_self _ _) hk
      have hv0 : k ∉ ({ s with dispatched := s.dispatched ++ [(u, d)] } : CrawlState).visited :=
        hv
      obtain ⟨hcount, hmem⟩ := crawl_url_count_claim
        { s with dispatched := s.dispatched ++ [(u, d)] } hk hv0 hdle hdom
      rw [runBatch_count_visited O b md rest _ hmem, hcount]
    · obtain ⟨hcount, hpres⟩ := crawl_url_count_other O b d md
        { s with dispatched := s.dispatched ++ [(u, d)] } hk
      have hv0 : k ∉ ({ s with dispatched := s.dispatched ++ [(u, d)] } : CrawlState).visited :=
        hv
      have hex' : ∃ e ∈ rest, normalize_url e.1 = k := by
        rcases hex with ⟨e', he', hke'⟩
        rcases List.mem_cons.mp he' with rfl | hmem'
        · exact absurd hke' hk
        · exact ⟨e', hmem', hke'⟩
      rw [ih _ (hpres hv0) (fun e he hke => hb e (List.mem_cons_of_mem _ he) hke) hex',
        hcount]

/-! ### Facts about the scheduler's link filter -/

theorem enqueueLinks_mem {b : String} {links : List String} {d : Nat}
    {v : List String} {e : String × Nat} (h : e ∈ enqueueLinks b links d v) :
    e.2 = d + 1 ∧ is_same_domain e.1 b = true ∧ normalize_url e.1 ∉ v := by
  unfold enqueueLinks at h
  rcases List.mem_filterMap.mp h with ⟨link, hmem, hsome⟩
  by_cases hc : normalize_url link ∉ v ∧ is_same_domain link b = true
  · rw [if_pos hc] at hsome
    cases hsome
    exact ⟨rfl, hc.2, hc.1⟩
  · rw [if_neg hc] at hsome
    cases hsome

theorem enqueueLinks_nil (b : String) (d : Nat) (v : List String) :
    enqueueLinks b [] d v = [] := rfl

/-! ### Equations and invariants for the scheduler loop -/

theorem crawlLoop_zero (O : Oracle) (b : String) (md : Nat) (q : List (String × Nat))
    (s : CrawlState) : crawlLoop O b md 0 q s = s := rfl

theorem crawlLoop_nil (O : Oracle) (b : String) (md fuel : Nat) (s : CrawlState) :
    crawlLoop O b md fuel [] s = s := by
  cases fuel <;> rfl

theorem crawlLoop_succ_cons (O : Oracle) (b : String) (md fuel : Nat) (u0 : String)
    (d0 : Nat) (qrest : List (String × Nat)) (s : CrawlState) :
    crawlLoop O b md (fuel + 1) ((u0, d0) :: qrest) s =
      if md < d0 then s
      else
        crawlLoop O b md fuel
          (((u0, d0) :: qrest).dropWhile (fun e => e.2 == d0) ++
            enqueueLinks b
              (runBatch O b md (((u0, d0) :: qrest).takeWhile (fun e => e.2 == d0)) s).1
              d0
              (runBatch O b md (((u0, d0) :: qrest).takeWhile (fun e => e.2 == d0)) s).2.visited)
          (runBatch O b md (((u0, d0) :: qrest).takeWhile (fun e => e.2 == d0)) s).2 := by
  by_cases hd : md < d0
  · simp [crawlLoop, hd]
  · rcases hr : runBatch O b md ((u0, d0) :: qrest.takeWhile (fun e => e.2 == d0)) s with
      ⟨links, s1⟩
    simp [crawlLoop, hd, hr]

/-- The loop preserves a duplicate-free ledger. -/
theorem crawlLoop_found_nodup (O : Oracle) (b : String) (md : Nat) (fuel : Nat) :
    ∀ (q : List (String × Nat)) (s : CrawlState), s.found.Nodup →
      (crawlLoop O b md fuel q s).found.Nodup := by
  induction fuel with
  | zero =>
    intro q s h
    simpa [crawlLoop_zero] using h
  | succ fuel ih =>
    intro q s h
    match q with
    | [] => simpa [crawlLoop_nil] using h
    | (u0, d0) :: qrest =>
      rw [crawlLoop_succ_cons]
      by_cases hd : md < d0
      · simpa [hd] using h
      · rw [if_neg hd]
        exact ih _ _ (runBatch_found_nodup O b md _ s h)

/-- The loop only grows the ledger. -/
theorem crawlLoop_found_mono {y : String × Option Nat} (O : Oracle) (b : String)
    (md : Nat) (fuel : Nat) :
    ∀ (q : List (String × Nat)) (s : CrawlState), y ∈ s.found →
      y ∈ (crawlLoop O b md fuel q s).found := by
  induction fuel with
  | zero =>
    intro q s h
    simpa [crawlLoop_zero] using h
  | succ fuel ih =>
    intro q s h
    match q with
    | [] => simpa [crawlLoop_nil] using h
    | (u0, d0) :: qrest =>
      rw [crawlLoop_succ_cons]
      by_cases hd : md < d0
      · simpa [hd] using h
      · rw [if_neg hd]
        exact ih _ _ (runBatch_found_mono O b md _ s h)

/-- Every entry a loop run dispatches, and every URL it fetches, is
in-domain, provided the queue holds only in-domain URLs. -/
theorem crawlLoop_indomain (O : Oracle) (b : String) (md : Nat) (fuel : Nat) :
    ∀ (q : List (String × Nat)) (s : CrawlState),
      (∀ e ∈ q, is_same_domain e.1 b = true) →
      (∀ e ∈ s.dispatched, is_same_domain e.1 b = true) →
      (∀ u ∈ s.fetched, is_same_domain u b = true) →
      (∀ e ∈ (crawlLoop O b md fuel q s).dispatched, is_same_domain e.1 b = true) ∧
      (∀ u ∈ (crawlLoop O b md fuel q s).fetched, is_same_domain u b = true) := by
  induction fuel with
  | zero =>
    intro q s hq hdis hfet
    rw [crawlLoop_zero]
    exact ⟨hdis, hfet⟩
  | succ fuel ih =>
    intro q s hq hdis hfet
    match q with
    | [] =>
      rw [crawlLoop_nil]
      exact ⟨hdis, hfet⟩
    | (u0, d0) :: qrest =>
      rw [crawlLoop_succ_cons]
      by_cases hd : md < d0
      · rw [if_pos hd]
        exact ⟨hdis, hfet⟩
      · rw [if_neg hd]
        have hbatch : ∀ e ∈ ((u0, d0) :: qrest).takeWhile (fun e => e.2 == d0),
            is_same_domain e.1 b = true := fun e he =>
          hq e ((List.takeWhile_sublist _).mem he)
        have hdis1 : ∀ e ∈ (runBatch O b md
            (((u0, d0) :: qrest).takeWhile (fun e => e.2 == d0)) s).2.dispatched,
            is_same_domain e.1 b = true := by
          rw [runBatch_dispatched]
          intro e he
          rcases List.mem_append.mp he with he | he
          · exact hdis e he
          · exact hbatch e he
        have hfet1 : ∀ u ∈ (runBatch O b md
            (((u0, d0) :: qrest).takeWhile (fun e => e.2 == d0)) s).2.fetched,
            is_same_domain u b = true := by
          intro u hu
          rcases runBatch_fetched_shape O b md _ s hu with hu | ⟨d', hd'⟩
          · exact hfet u hu
          · exact hbatch (u, d') hd'
        have hq1 : ∀ e ∈ ((u0, d0) :: qrest).dropWhile (fun e => e.2 == d0) ++
            enqueueLinks b
              (runBatch O b md (((u0, d0) :: qrest).takeWhile (fun e => e.2 == d0)) s).1
              d0
              (runBatch O b md
                (((u0, d0) :: qrest).takeWhile (fun e => e.2 == d0)) s).2.visited,
            is_same_domain e.1 b = true := by
          intro e he
          rcases List.mem_append.mp he with he | he
          · exact hq e ((List.dropWhile_sublist _).mem he)
          · exact (enqueueLinks_mem he).2.1
        exact ih _ _ hq1 hdis1 hfet1

/-- A uniform-depth dispatch segment is depth-monotone. -/
theorem chain'_depth_of_all_eq {l : List (String × Nat)} {d : Nat}
    (h : ∀ e ∈ l, e.2 = d) :
    List.Chain' (fun a e => a.2 ≤ e.2) l := by
  induction l with
  | nil => simp
  | cons a t ih =>
    rw [List.chain'_cons']
    refine ⟨?_, ih (fun e he => h e (List.mem_cons_of_mem _ he))⟩
    intro b hb
    have hbt : b ∈ t := List.mem_of_mem_head? hb
    rw [h a (List.mem_cons_self _ _), h b (List.mem_cons_of_mem _ hbt)]

/-- Appending a uniform-depth batch at depth `d` to a depth-monotone log
bounded by `d` keeps the log depth-monotone. -/
theorem chain'_depth_append {l₁ l₂ : List (String × Nat)} {d : Nat}
    (h1 : List.Chain' (fun a e => a.2 ≤ e.2) l₁)
    (hb : ∀ e ∈ l₁, e.2 ≤ d) (h2 : ∀ e ∈ l₂, e.2 = d) :
    List.Chain' (fun a e => a.2 ≤ e.2) (l₁ ++ l₂) := by
  rw [List.chain'_append]
  refine ⟨h1, chain'_depth_of_all_eq h2, ?_⟩
  intro x hx y hy
  have hxm : x ∈ l₁ := List.mem_of_mem_getLast? hx
  have hym : y ∈ l₂ := List.mem_of_mem_head? hy
  rw [h2 y hym]
  exact hb x hxm

/-- From a uniform-depth queue, the dispatch log extends in non-decreasing
depth order: all of one depth level is dispatched before anything deeper. -/
theorem crawlLoop_chain (O : Oracle) (b : String) (md : Nat) (fuel : Nat) :
    ∀ (d : Nat) (q : List (String × Nat)) (s : CrawlState),
      (∀ e ∈ q, e.2 = d) →
      (∀ e ∈ s.dispatched, e.2 ≤ d) →
      List.Chain' (fun a e => a.2 ≤ e.2) s.dispatched →
      List.Chain' (fun a e => a.2 ≤ e.2) (crawlLoop O b md fuel q s).dispatched := by
  induction fuel with
  | zero =>
    intro d q s hq hb hc
    rwa [crawlLoop_zero]
  | succ fuel ih =>
    intro d q s hq hb hc
    match q with
    | [] => rwa [crawlLoop_nil]
    | (u0, d0) :: qrest =>
      have hd0 : d0 = d := hq (u0, d0) (List.mem_cons_self _ _)
      rw [crawlLoop_succ_cons]
      by_cases hd : md < d0
      · rwa [if_pos hd]
      · rw [if_neg hd]
        have hdrop : ((u0, d0) :: qrest).dropWhile (fun e => e.2 == d0) = [] := by
          apply List.dropWhile_eq_nil_iff.mpr
          intro e he
          simp [hq e he, hd0]
        have hbatchall : ∀ e ∈ ((u0, d0) :: qrest).takeWhile (fun e => e.2 == d0),
            e.2 = d := fun e he => hq e ((List.takeWhile_sublist _).mem he)
        rw [hdrop, List.nil_append]
        apply ih (d + 1)
        · intro e he
          rw [(enqueueLinks_mem he).1, hd0]
        · intro e he
          rw [runBatch_dispatched] at he
          rcases List.mem_append.mp he with he | he
          · exact Nat.le_succ_of_le (hb e he)
          · exact Nat.le_succ_of_le (Nat.le_of_eq (hbatchall e he))
        · rw [runBatch_dispatched]
          exact chain'_depth_append hc hb hbatchall

/-- The seed URL is in-domain with respect to its own netloc. -/
theorem is_same_domain_self_base (url : String) :
    is_same_domain url ⟨(urlparse url.data).netloc⟩ = true := by
  simp [is_same_domain]

/-- Claim calls for a key that is already present all lose. -/
theorem claimSeq_count_present (k : String) (n : Nat) (v : List String) (hk : k ∈ v) :
    (claimSeq k n v).count true = 0 := by
  induction n generalizing v with
  | zero => rfl
  | succ n ih =>
    simp only [claimSeq, claimKey, if_pos hk]
    rw [List.count_cons]
    simp [ih v hk]

/-- Of `n ≥ 1` claim calls for an absent key, exactly one wins. -/
theorem claimSeq_count_absent (k : String) (v : List String) (n : Nat) (hk : k ∉ v)
    (hn : 1 ≤ n) : (claimSeq k n v).count true = 1 := by
  match n, hn with
  | n + 1, _ =>
    simp only [claimSeq, claimKey, if_neg hk]
    rw [List.count_cons]
    have hmem : k ∈ v ++ [k] := by simp
    simp [claimSeq_count_present k n _ hmem]

/-- A queue whose every entry lies beyond the depth bound is discarded
without dispatching anything (the hard cutoff). -/
theorem crawlLoop_cutoff (O : Oracle) (b : String) (md fuel : Nat)
    (q : List (String × Nat)) (s : CrawlState) (h : ∀ e ∈ q, md < e.2) :
    crawlLoop O b md fuel q s = s := by
  match fuel, q with
  | 0, _ => rfl
  | fuel + 1, [] => exact crawlLoop_nil O b md _ s
  | fuel + 1, (u0, d0) :: t =>
    rw [crawlLoop_succ_cons, if_pos (h (u0, d0) (List.mem_cons_self _ _))]

/-- Appending a slash preserves path well-formedness. -/
theorem wfPath_append_slash {p : List Char} (hp : wfPath p) : wfPath (p ++ ['/']) := by
  obtain ⟨hhead, hq, hf⟩ := hp
  refine ⟨Or.inr ?_, ?_, ?_⟩
  · rcases p with _ | ⟨c, p'⟩
    · rfl
    · rcases hhead with hnil | hc
      · exact absurd hnil (by simp)
      · simpa using hc
  · simp [List.mem_append, hq]
  · simp [List.mem_append, hf]

/-! ### Claim theorems -/

/-- C5: a crawl with `maxDepth = 0` fetches only the seed URL, produces
exactly one record, and dispatches nothing but the seed — whatever the
seed's page links to (in particular a page with 5 in-domain links): the
level batched at depth 1 exceeds the bound and is discarded without
dispatch. -/
theorem spec_C5 (O : Oracle) (seed : String) :
    (crawl O seed 0 initState).2.fetched = [seed] ∧
    (crawl O seed 0 initState).1.length = 1 ∧
    (crawl O seed 0 initState).2.dispatched = [(seed, 0)] := by
  have hbase := is_same_domain_self_base seed
  set b : String := ⟨(urlparse seed.data).netloc⟩ with hb
  have hstep : ∃ links s1,
      runBatch O b 0 [(seed, 0)] initState = (links, s1) ∧
      s1.fetched = [seed] ∧ s1.found.length = 1 ∧ s1.dispatched = [(seed, 0)] ∧
      ∀ e ∈ enqueueLinks b links 0 s1.visited, (0 : Nat) < e.2 := by
    rw [runBatch_cons]
    have hd : ¬ (0 : Nat) < 0 := by omega
    have hv : normalize_url seed ∉
        ({ initState with
            dispatched := initState.dispatched ++ [(seed, 0)] } : CrawlState).visited := by
      simp [initState]
    rcases hf : O.fetch seed with _ | ⟨c, st⟩
    · rw [crawl_url_eq_fail hd hv hbase hf]
      refine ⟨[], _, rfl, ?_, ?_, ?_, ?_⟩
      · simp [runBatch, initState]
      · simp [runBatch, initState, setAdd]
      · simp [runBatch, initState]
      · intro e he
        rw [(enqueueLinks_mem he).1]
        omega
    · rw [crawl_url_eq_ok hd hv hbase hf]
      refine ⟨O.extract c seed ++ [], _, rfl, ?_, ?_, ?_, ?_⟩
      · simp [runBatch, initState]
      · simp [runBatch, initState, setAdd]
      · simp [runBatch, initState]
      · intro e he
        rw [(enqueueLinks_mem he).1]
        omega
  obtain ⟨links, s1, hrb, hfet, hfnd, hdis, hnext⟩ := hstep
  simp only [crawl, ← hb]
  rw [show (0 : Nat) + 2 = 1 + 1 from rfl, crawlLoop_succ_cons, if_neg (by omega)]
  simp only [List.takeWhile_cons, List.dropWhile_cons]
  norm_num
  rw [hrb]
  rw [crawlLoop_cutoff O b 0 1 _ s1 hnext]
  exact ⟨hfet, hfnd, hdis⟩

/-- C9 (amended): crawl sessions share the module-level `visited` /
`found_paths` state; a second `crawl` invocation whose seed is already in
`visited` fetches nothing, claims nothing, and returns the accumulated
record set of the earlier session(s) unchanged. -/
theorem spec_C9_amended (O : Oracle) (seed : String) (md : Nat) (s : CrawlState)
    (h : normalize_url seed ∈ s.visited) :
    (crawl O seed md s).1 = s.found ∧
    (crawl O seed md s).2.fetched = s.fetched ∧
    (crawl O seed md s).2.visited = s.visited := by
  set b : String := ⟨(urlparse seed.data).netloc⟩ with hb
  have hrb : runBatch O b md [(seed, 0)] s =
      ([], { s with dispatched := s.dispatched ++ [(seed, 0)] }) := by
    rw [runBatch_cons]
    have hd : ¬ md < 0 := by omega
    have hv : normalize_url seed ∈
        ({ s with dispatched := s.dispatched ++ [(seed, 0)] } : CrawlState).visited := h
    rw [crawl_url_eq_visited O seed b hd hv]
    simp [runBatch]
  simp only [crawl, ← hb]
  rw [show md + 2 = (md + 1) + 1 from rfl, crawlLoop_succ_cons, if_neg (by omega)]
  simp only [List.takeWhile_cons, List.dropWhile_cons]
  norm_num
  rw [hrb]
  simp only [enqueueLinks_nil, List.append_nil]
  rw [crawlLoop_nil]
  exact ⟨rfl, rfl, rfl⟩

/-- C1: the Visited Registry's claim operation (the locked test-and-insert
of crawler.py lines 69–72, serialized by `visited_lock`) is at-most-once:
of `n ≥ 1` claim calls for the same absent key, exactly one observes it
absent and inserts; consequently a depth-level batch containing the same
page `C` twice (two pages linked to it) fetches `C`'s key exactly once,
regardless of the dispatch order of the batch. -/
theorem spec_C1 :
    (∀ (k : String) (v : List String) (n : Nat), k ∉ v → 1 ≤ n →
      (claimSeq k n v).count true = 1) ∧
    (∀ (O : Oracle) (b : String) (md : Nat) (batch : List (String × Nat))
        (s : CrawlState) (k : String), k ∉ s.visited →
      (∀ e ∈ batch, normalize_url e.1 = k → e.2 ≤ md ∧ is_same_domain e.1 b = true) →
      (∃ e ∈ batch, normalize_url e.1 = k) →
      countFetched k (runBatch O b md batch s).2.fetched =
        countFetched k s.fetched + 1) := by
  constructor
  · intro k v n hk hn
    exact claimSeq_count_absent k v n hk hn
  · intro O b md batch s k hv hb hex
    exact runBatch_count_one O b md batch s hv hb hex

theorem spec_C1_witness :
    ((claimSeq "https://a.com/c" 3 []).count true = 1) ∧
    countFetched "https://a.com/c"
        ((runBatch OW1 "a.com" 1 [("https://a.com/c", 1), ("https://a.com/c/", 1)]
          initState)).2.fetched =
      countFetched "https://a.com/c" initState.fetched + 1 :=
  ⟨spec_C1.1 "https://a.com/c" [] 3 (by decide) (by decide),
   spec_C1.2 OW1 "a.com" 1 [("https://a.com/c", 1), ("https://a.com/c/", 1)] initState
     "https://a.com/c" (by decide) (by decide) (by decide)⟩

/-- C3 (counterexample): `normalize_url` strips ALL trailing slashes, not
exactly one — on `"https://a.com/x//"` the claim predicts
`"https://a.com/x/"`, but the code returns `"https://a.com/x"`. -/
theorem spec_C3_counterexample :
    normalize_url "https://a.com/x//" = "https://a.com/x" ∧
    normalize_url "https://a.com/x//" ≠ "https://a.com/x/" := by
  constructor
  · decide
  · decide

/-- C3 (amended): for every well-formed absolute URL, `normalize_url`
returns scheme + "://" + host + path with ALL trailing slashes stripped
(so a path ending in "//" loses both slashes), the root path "/" reducing
to scheme://host, "?query" appended verbatim when a nonempty query string
exists, the fragment dropped entirely; the function is total (no error
path).  The second conjunct pins down the stripping: the stripped path
never ends in a slash and the original path is the stripped path plus some
number of trailing slashes. -/
theorem spec_C3_amended :
    (∀ s h p q f, wfScheme s → wfHost h → wfPath p → ';' ∉ p → '#' ∉ q →
      normalizeList (buildUrl s h p (some q) (some f)) =
        (s.map Char.toLower ++ ':' :: '/' :: '/' :: (h ++ rstripSlash p)) ++
          (if q ≠ [] then '?' :: q else []) ∧
      normalizeList (buildUrl s h p none none) =
        s.map Char.toLower ++ ':' :: '/' :: '/' :: (h ++ rstripSlash p)) ∧
    (∀ p, (rstripSlash p).getLast? ≠ some '/' ∧
      ∃ k, p = rstripSlash p ++ List.replicate k '/') := by
  constructor
  · intro s h p q f hs hh hp hsemi hq
    constructor
    · have hbuild := normalizeList_build (q := some q) (f := some f) hs hh hp
        (by simpa using hq) hsemi
      simpa using hbuild
    · have hbuild := normalizeList_build (q := none) (f := none) hs hh hp
        (by simp) hsemi
      simpa using hbuild
  · intro p
    exact ⟨rstripSlash_getLast? p, rstripSlash_replicate p⟩

theorem spec_C3_amended_witness :
    normalizeList (buildUrl "https".data "a.com".data "/x//".data (some "q=1".data)
        (some "frag".data)) =
      ("https".data.map Char.toLower ++ ':' :: '/' :: '/' ::
        ("a.com".data ++ rstripSlash "/x//".data)) ++
        (if "q=1".data ≠ [] then '?' :: "q=1".data else []) :=
  (spec_C3_amended.1 "https".data "a.com".data "/x//".data "q=1".data "frag".data
    (by decide) (by decide) (by decide) (by decide) (by decide)).1

/-- C4 (counterexample): trailing-slash invariance of `normalize_url`
fails when the last path segment holds a `;`: `urlparse` splits `;params`
only in the slashless variant, so `"https://a.com/x;p/"` and
`"https://a.com/x;p"` normalize differently (to `"https://a.com/x;p"` and
`"https://a.com/x"`). -/
theorem spec_C4_counterexample :
    normalize_url "https://a.com/x;p/" ≠ normalize_url "https://a.com/x;p" := by
  decide

/-- C4 (amended): the concrete instances of the claim hold, and for every
well-formed absolute URL whose path holds no semicolon, URLs differing only
by a trailing slash on the path, or only by their fragment, normalize
identically. -/
theorem spec_C4_amended :
    (normalize_url "https://a.com/x/" = normalize_url "https://a.com/x" ∧
     normalize_url "https://a.com/x" = normalize_url "https://a.com/x#frag") ∧
    (∀ s h p q f, wfScheme s → wfHost h → wfPath p → ';' ∉ p → '#' ∉ q.getD [] →
      normalizeList (buildUrl s h (p ++ ['/']) q f) =
        normalizeList (buildUrl s h p q f)) ∧
    (∀ s h p q f f', wfScheme s → wfHost h → wfPath p → ';' ∉ p →
      '#' ∉ q.getD [] →
      normalizeList (buildUrl s h p q (some f)) =
        normalizeList (buildUrl s h p q f')) := by
  refine ⟨⟨by decide, by decide⟩, ?_, ?_⟩
  · intro s h p q f hs hh hp hsemi hq
    rw [normalizeList_build hs hh (wfPath_append_slash hp) (by simpa using hq)
        (by simp [List.mem_append, hsemi]),
      normalizeList_build hs hh hp (by simpa using hq) hsemi,
      rstripSlash_append_slash]
  · intro s h p q f f' hs hh hp hsemi hq
    rw [normalizeList_build hs hh hp (by simpa using hq) hsemi,
      normalizeList_build hs hh hp (by simpa using hq) hsemi]

theorem spec_C4_amended_witness :
    normalizeList (buildUrl "https".data "a.com".data ("/x".data ++ ['/']) none none) =
      normalizeList (buildUrl "https".data "a.com".data "/x".data none none) :=
  spec_C4_amended.2.1 "https".data "a.com".data "/x".data none none
    (by decide) (by decide) (by decide) (by decide) (by decide)

/-- C2 (counterexample): `found_paths` is a set of `(path, status)` pairs,
so records are NOT kept one-per-claimed-URL: with the same path claimed
under two query strings and both fetches returning 200, three URLs are
claimed but only two records exist. -/
theorem spec_C2_counterexample :
    (crawl O2s "https://a.com" 1 initState).2.visited.length = 3 ∧
    (crawl O2s "https://a.com" 1 initState).1.length = 2 ∧
    (crawl O2s "https://a.com" 1 initState).1.length ≠
      (crawl O2s "https://a.com" 1 initState).2.visited.length := by
  refine ⟨by decide, by decide, by decide⟩

/-- C2 (amended): the ledger keeps one record per distinct `(path, status)`
pair: it never holds two identical records (set semantics), while records
that coincide by path alone — distinct query strings fetched with distinct
statuses — are preserved separately. -/
theorem spec_C2_amended :
    (∀ (O : Oracle) (seed : String) (md : Nat) (s : CrawlState), s.found.Nodup →
      (crawl O seed md s).1.Nodup) ∧
    (("/p", some 200) ∈ (crawl O2d "https://a.com" 1 initState).1 ∧
     ("/p", some 404) ∈ (crawl O2d "https://a.com" 1 initState).1 ∧
     (crawl O2d "https://a.com" 1 initState).1.length = 3) := by
  constructor
  · intro O seed md s h
    exact crawlLoop_found_nodup O _ md (md + 2) [(seed, 0)] s h
  · refine ⟨by decide, by decide, by decide⟩

theorem spec_C2_amended_witness :
    initState.found.Nodup ∧ (crawl O2s "https://a.com" 1 initState).1.Nodup :=
  ⟨by decide, spec_C2_amended.1 O2s "https://a.com" 1 initState (by decide)⟩

/-- C6: the frontier is processed in non-decreasing depth order.  First
conjunct: every link the scheduler enqueues while processing depth `d`
enters the frontier at exactly depth `d + 1`.  Second conjunct: when every
queue entry has the same depth (the loop invariant), the batch pop drains
the whole queue, so each iteration starts from a uniform-depth queue.
Third conjunct: over a whole crawl, the dispatch log is sorted by
non-decreasing depth — all depth-`d` work is dispatched before any
depth-`d+1` entry. -/
theorem spec_C6 :
    (∀ (b : String) (links : List String) (d : Nat) (v : List String)
        (e : String × Nat), e ∈ enqueueLinks b links d v → e.2 = d + 1) ∧
    (∀ (q : List (String × Nat)) (d : Nat), (∀ e ∈ q, e.2 = d) →
      q.dropWhile (fun e => e.2 == d) = [] ∧ q.takeWhile (fun e => e.2 == d) = q) ∧
    (∀ (O : Oracle) (seed : String) (md : Nat),
      List.Chain' (fun a e => a.2 ≤ e.2) (crawl O seed md initState).2.dispatched) := by
  refine ⟨?_, ?_, ?_⟩
  · intro b links d v e he
    exact (enqueueLinks_mem he).1
  · intro q d hq
    have hall : ∀ e ∈ q, ((fun e : String × Nat => e.2 == d) e) = true := by
      intro e he
      simp [hq e he]
    exact ⟨List.dropWhile_eq_nil_iff.mpr hall, List.takeWhile_eq_self_iff.mpr hall⟩
  · intro O seed md
    apply crawlLoop_chain O _ md (md + 2) 0
    · intro e he
      rcases List.mem_singleton.mp he with rfl
      rfl
    · intro e he
      simp [initState] at he
    · simp [initState]

theorem spec_C6_witness :
    (("https://a.com/p", 1) ∈ enqueueLinks "a.com" ["https://a.com/p"] 0 [] ∧
      (("https://a.com/p", 1) : String × Nat).2 = 0 + 1) ∧
    List.Chain' (fun a e : String × Nat => a.2 ≤ e.2)
      (crawl O2s "https://a.com" 1 initState).2.dispatched :=
  ⟨⟨by decide, spec_C6.1 "a.com" ["https://a.com/p"] 0 [] _ (by decide)⟩,
   spec_C6.2.2 O2s "https://a.com" 1⟩

/-- C7: a fetch failure is local to its URL.  The failing worker still
claims, records `(path, none)` and returns no links (the model is total,
so no exception escapes); and in a batch holding the failing `X` next to a
succeeding `Y`, the batch still yields `Y`'s links for the next level and
both records — order-independence over the batch follows from C1's
quantification, shown here for the batch `[X, Y]`. -/
theorem spec_C7 (O : Oracle) (b : String) (md d : Nat) (X Y cY : String)
    (sY : Nat) (s : CrawlState)
    (hfX : O.fetch X = none) (hfY : O.fetch Y = some (cY, sY))
    (hvX : normalize_url X ∉ s.visited) (hvY : normalize_url Y ∉ s.visited)
    (hne : normalize_url X ≠ normalize_url Y)
    (hdomX : is_same_domain X b = true) (hdomY : is_same_domain Y b = true)
    (hd : d ≤ md) :
    (crawl_url O X b d md s).1 = [] ∧
    (pathOf X, none) ∈ (crawl_url O X b d md s).2.found ∧
    (runBatch O b md [(X, d), (Y, d)] s).1 = O.extract cY Y ∧
    (pathOf X, none) ∈ (runBatch O b md [(X, d), (Y, d)] s).2.found ∧
    (pathOf Y, some sY) ∈ (runBatch O b md [(X, d), (Y, d)] s).2.found := by
  have hd' : ¬ md < d := by omega
  refine ⟨?_, ?_, ?_⟩
  · rw [crawl_url_eq_fail hd' hvX hdomX hfX]
  · rw [crawl_url_eq_fail hd' hvX hdomX hfX]
    exact mem_setAdd_self _ _
  · rw [runBatch_cons]
    have hvX0 : normalize_url X ∉
        ({ s with dispatched := s.dispatched ++ [(X, d)] } : CrawlState).visited := hvX
    rw [crawl_url_eq_fail hd' hvX0 hdomX hfX]
    rw [runBatch_cons]
    have hvY1 : normalize_url Y ∉
        ({ s with
            visited := s.visited ++ [normalize_url X],
            fetched := s.fetched ++ [X],
            found := setAdd (pathOf X, none) s.found,
            dispatched := (s.dispatched ++ [(X, d)]) ++ [(Y, d)] } : CrawlState).visited := by
      simp only [List.mem_append, List.mem_singleton]
      rintro (hk | hk)
      · exact hvY hk
      · exact hne hk.symm
    rw [crawl_url_eq_ok hd' hvY1 hdomY hfY]
    refine ⟨by simp [runBatch], ?_, ?_⟩
    · simp only [runBatch]
      exact mem_setAdd_of_mem _ (mem_setAdd_self _ _)
    · simp only [runBatch]
      exact mem_setAdd_self _ _

theorem spec_C7_witness :
    (crawl_url O7 "https://a.com/bad" "a.com" 1 1 initState).1 = [] ∧
    (runBatch O7 "a.com" 1 [("https://a.com/bad", 1), ("https://a.com/good", 1)]
        initState).1 = O7.extract "goodpage" "https://a.com/good" ∧
    (pathOf "https://a.com/bad", none) ∈
      (runBatch O7 "a.com" 1 [("https://a.com/bad", 1), ("https://a.com/good", 1)]
        initState).2.found ∧
    (pathOf "https://a.com/good", some 200) ∈
      (runBatch O7 "a.com" 1 [("https://a.com/bad", 1), ("https://a.com/good", 1)]
        initState).2.found := by
  have h := spec_C7 O7 "a.com" 1 1 "https://a.com/bad" "https://a.com/good" "goodpage"
    200 initState (by decide) (by decide) (by decide) (by decide) (by decide)
    (by decide) (by decide) (by decide)
  exact ⟨h.1, h.2.2.1, h.2.2.2.1, h.2.2.2.2⟩

/-- C8 (code bug): at the failing input — a crawl whose records pair the
path `/x` with both an absent status (`None`) and `200` — `sorted(paths)`
compares `None` with an int and raises `TypeError`, so no sorted output
lines are produced, where the claim (and crawler's `-o` contract) promises
lines sorted by `(path, status)` even with absent statuses present. -/
theorem spec_C8_bug :
    (crawl O8 "https://a.com" 1 initState).1 =
      [("/", some 200), ("/x", none), ("/x", some 200)] ∧
    output_lines (crawl O8 "https://a.com" 1 initState).1 = .error () ∧
    output_lines [("/", some 200), ("/x", some 200), ("/x", some 404)] =
      .ok ["200\t/", "200\t/x", "404\t/x"] := by
  refine ⟨by decide, by rfl, by rfl⟩

/-- C9 (counterexample): two `crawl` invocations in the same process share
the module-level `visited` set, so the second invocation of the same seed
fetches nothing — not the same URLs as if the first had never run (a fresh
run fetches the seed). -/
theorem spec_C9_counterexample :
    ((crawl O9 "https://a.com" 0 ((crawl O9 "https://a.com" 0 initState).2)).2.fetched.drop
        ((crawl O9 "https://a.com" 0 initState).2.fetched.length) ≠
      (crawl O9 "https://a.com" 0 initState).2.fetched) ∧
    (crawl O9 "https://a.com" 0 initState).2.fetched = ["https://a.com"] := by
  refine ⟨by decide, by decide⟩

theorem spec_C9_amended_witness :
    normalize_url "https://a.com" ∈ ((crawl O9 "https://a.com" 0 initState).2).visited ∧
    (crawl O9 "https://a.com" 0 ((crawl O9 "https://a.com" 0 initState).2)).1 =
      ((crawl O9 "https://a.com" 0 initState).2).found :=
  ⟨by decide,
   (spec_C9_amended O9 "https://a.com" 0 ((crawl O9 "https://a.com" 0 initState).2)
     (by decide)).1⟩

/-- C10: every entry the scheduler dispatches, and every URL fetched, is
in-domain with respect to the seed's netloc — the seed by construction and
discovered links by the enqueue filter; and on an in-domain URL the worker
behaves exactly as the same worker with its out-of-domain early return
deleted, so that branch is unreachable for dispatched URLs. -/
theorem spec_C10 (O : Oracle) (seed : String) (md : Nat) :
    (∀ e ∈ (crawl O seed md initState).2.dispatched,
      is_same_domain e.1 (⟨(urlparse seed.data).netloc⟩ : String) = true) ∧
    (∀ u ∈ (crawl O seed md initState).2.fetched,
      is_same_domain u (⟨(urlparse seed.data).netloc⟩ : String) = true) ∧
    (∀ (O' : Oracle) (u b : String) (d m : Nat) (s : CrawlState),
      is_same_domain u b = true →
      crawl_url O' u b d m s = crawl_url_no_domain_branch O' u b d m s) := by
  have hmain := crawlLoop_indomain O (⟨(urlparse seed.data).netloc⟩ : String) md (md + 2)
    [(seed, 0)] initState
    (by
      intro e he
      rcases List.mem_singleton.mp he with rfl
      exact is_same_domain_self_base seed)
    (by intro e he; simp [initState] at he)
    (by intro u hu; simp [initState] at hu)
  refine ⟨hmain.1, hmain.2, ?_⟩
  intro O' u b d m s hdom
  simp [crawl_url, crawl_url_no_domain_branch, hdom]

theorem spec_C10_witness :
    ("https://a.com", 0) ∈ (crawl O9 "https://a.com" 0 initState).2.dispatched ∧
    is_same_domain "https://a.com"
      (⟨(urlparse "https://a.com".data).netloc⟩ : String) = true :=
  ⟨by decide, (spec_C10 O9 "https://a.com" 0).1 ("https://a.com", 0) (by decide)⟩

end Crawler
